import Mathlib

/-!
Verification of the frame-sequence animation engine of `youtube_automation.py`
(the "typing code" short-video generator).

The embedding below follows the source code:
a Python `str` is modelled as a `String` where only whole-string operations
occur, and as a `List Char` (`Line`) where the code indexes and slices by
character (Python slicing is by characters, as is `List Char` indexing).
The fallible `hex_to_rgb` returns `Option`: `none` models a raised exception.
-/

namespace YoutubeAutomation

/-- A line of source text, as the sequence of its characters
(Python strings are character sequences; `line[:k]` is `Line.take k`). -/
abbrev Line := List Char

/-! ## hex_to_rgb (youtube_automation.py lines 385-387)

Python source:
```
def hex_to_rgb(self, hex_color):
    hex_color = hex_color.lstrip('#')
    return tuple(int(hex_color[i:i+2], 16) for i in (0, 2, 4))
```
`int(s, 16)` is modelled by `pyIntHex?` below following the documented CPython
grammar for base-16 integer literals restricted to ASCII: optional surrounding
whitespace, an optional sign, an optional `0x`/`0X` marker, then hex digits
with single underscores allowed between digits. `none` models `ValueError`. -/

/-- Value of one hexadecimal digit character, or `none`. -/
def hexVal? (c : Char) : Option Nat :=
  if '0' ≤ c ∧ c ≤ '9' then some (c.toNat - '0'.toNat)
  else if 'a' ≤ c ∧ c ≤ 'f' then some (c.toNat - 'a'.toNat + 10)
  else if 'A' ≤ c ∧ c ≤ 'F' then some (c.toNat - 'A'.toNat + 10)
  else none

/-- Remaining digits of a base-16 numeral: each further digit may be preceded
by a single underscore. -/
def hexDigitsRest : Nat → List Char → Option Nat
  | acc, [] => some acc
  | acc, '_' :: c :: cs =>
    match hexVal? c with
    | some v => hexDigitsRest (acc * 16 + v) cs
    | none => none
  | acc, c :: cs =>
    match hexVal? c with
    | some v => hexDigitsRest (acc * 16 + v) cs
    | none => none

/-- Body of a base-16 numeral: at least one digit, then `hexDigitsRest`. -/
def parseHexBody : List Char → Option Nat
  | [] => none
  | c :: cs =>
    match hexVal? c with
    | some v => hexDigitsRest v cs
    | none => none

/-- Digits of a base-16 numeral after an optional `0x`/`0X` marker
(an underscore may directly follow the marker). -/
def parseHexUnsigned : List Char → Option Nat
  | '0' :: 'x' :: '_' :: cs => parseHexBody cs
  | '0' :: 'x' :: cs => parseHexBody cs
  | '0' :: 'X' :: '_' :: cs => parseHexBody cs
  | '0' :: 'X' :: cs => parseHexBody cs
  | cs => parseHexBody cs

/-- Optionally signed base-16 numeral. -/
def parseHexSigned : List Char → Option Int
  | '+' :: cs => (parseHexUnsigned cs).map Int.ofNat
  | '-' :: cs => (parseHexUnsigned cs).map fun n => -(n : Int)
  | cs => (parseHexUnsigned cs).map Int.ofNat

/-- Python `int(s, 16)` (ASCII inputs): strip surrounding whitespace, then parse
an optionally signed base-16 numeral. `none` models `ValueError`. -/
def pyIntHex? (s : String) : Option Int :=
  parseHexSigned
    (((s.data.dropWhile Char.isWhitespace).reverse.dropWhile Char.isWhitespace).reverse)

/-- Python slice `s[i:i+2]` by characters. -/
def pySlice2 (l : List Char) (i : Nat) : List Char := (l.drop i).take 2

/-- The `hex_to_rgb` method: strip every leading `#` (Python `lstrip('#')`),
then parse the three character slices `[0:2]`, `[2:4]`, `[4:6]` with
`int(-, 16)`. A raised `ValueError` is modelled by `none`. -/
def hex_to_rgb (hex_color : String) : Option (Int × Int × Int) :=
  let h := hex_color.data.dropWhile fun c => c = '#'
  match pyIntHex? ⟨pySlice2 h 0⟩, pyIntHex? ⟨pySlice2 h 2⟩, pyIntHex? ⟨pySlice2 h 4⟩ with
  | some r, some g, some b => some (r, g, b)
  | _, _, _ => none

/-! ## get_text_chunks (youtube_automation.py lines 389-463)

The function first returns `[]` for empty input. On the Pygments path it maps
each `(token_type, value)` pair produced by the external lexer to
`(value, color)`, the color coming from the `STYLE_MAP` ancestor walk; the
lexer and the walk belong to the external Pygments library, so the token type
is an abstract type `T` and the walk an abstract `colorOf : T → String`
(neither affects the text content of the chunks). On the fallback path the
whole line becomes a single chunk whose color is chosen by `fallbackColor`. -/

/-- Does list `p` occur as an initial run of `s`? (helper for substring tests) -/
def strLeads : List Char → List Char → Bool
  | [], _ => true
  | _ :: _, [] => false
  | a :: as, b :: bs => a == b && strLeads as bs

/-- Does `needle` occur anywhere inside the second list?
(models the Python `in` test on strings) -/
def strHas (needle : List Char) : List Char → Bool
  | [] => strLeads needle []
  | c :: hs => strLeads needle (c :: hs) || strHas needle hs

/-- The fixed keyword list of the fallback path. -/
def keywords : List String :=
  ["print", "def", "class", "if", "else", "elif", "for", "while", "import", "return",
   "true", "false", "null", "none", "var", "let", "const", "function", "func",
   "public", "private", "protected", "void", "int", "string", "bool", "float"]

/-- Color chosen by the fallback path for a whole line, following the source:
comment marker, then keyword containment, then quote, then digit, else white. -/
def fallbackColor (text : String) : String :=
  if text.trim.startsWith "#" || text.trim.startsWith "//" then "#808080"
  else if keywords.any fun kw => strHas kw.data text.toLower.data then "#ff3e9d"
  else if text.contains '"' || text.contains '\'' then "#00ff88"
  else if text.data.any Char.isDigit then "#ffff00"
  else "#ffffff"

/-- The `get_text_chunks` method. `lexed = some toks` is the Pygments path with
the external lexer's token stream `toks`; `lexed = none` is the fallback path
(Pygments unavailable or the lexer raised). -/
def get_text_chunks {T : Type} (colorOf : T → String) (lexed : Option (List (T × String)))
    (text language : String) : List (String × String) :=
  if text = "" then []
  else
    match lexed with
    | some toks => toks.map fun tv => (tv.2, colorOf tv.1)
    | none => [(text, fallbackColor text)]

/-- Concatenation of the text components of a chunk list. -/
def chunksText (chunks : List (String × String)) : String :=
  chunks.foldl (fun a c => a ++ c.1) ""

/-- Concatenation of the value components of a lexer token stream. -/
def tokensText {T : Type} (toks : List (T × String)) : String :=
  toks.foldl (fun a tv => a ++ tv.2) ""

/-! ## The typing-progress state machine (create_video, lines 854-890)

Python source of the per-frame code-phase update:
```
if current_line < len(code_lines):
    line = code_lines[current_line]
    if int(current_char) <= len(line):
        if current_line >= len(code_progress):
            code_progress.append('')
        code_progress[current_line] = line[:int(current_char)]
        current_char += chars_per_frame
    else:
        current_line += 1
        current_char = 0.0
```
`current_char` starts at `0.0` and is only ever increased by `chars_per_frame`
(0.5, or 1 when `code_frames == 0`) or reset to `0.0`; every reachable value is
an exact multiple of 0.5 in IEEE double arithmetic, so it is stored here as a
count of half-characters: the Python value is `current_char / 2` and
`int(current_char)` is the Nat division `current_char / 2`. -/

/-- The mutable state of the typing loop in `create_video`. -/
structure TypingState where
  current_line : Nat
  current_char : Nat
  code_progress : List Line
  deriving DecidableEq

/-- Line `i` of the code block (`code_lines[i]`; out-of-range reads never occur
in the source and default to the empty line here). -/
def lineAt (cl : List Line) (i : Nat) : Line := cl.getD i []

/-- One frame of the code-phase typing update, `rate` in half-characters. -/
def typeStep (code_lines : List Line) (rate : Nat) (s : TypingState) : TypingState :=
  if s.current_line < code_lines.length then
    let line := lineAt code_lines s.current_line
    if s.current_char / 2 ≤ line.length then
      let cp :=
        if s.code_progress.length ≤ s.current_line then s.code_progress ++ [[]]
        else s.code_progress
      ⟨s.current_line, s.current_char + rate, cp.set s.current_line (line.take (s.current_char / 2))⟩
    else ⟨s.current_line + 1, 0, s.code_progress⟩
  else s

/-- State after `n` frames of the code phase, from the initial state
`current_line = 0`, `current_char = 0.0`, `code_progress = []`. -/
def typingAfter (code_lines : List Line) (rate n : Nat) : TypingState :=
  (typeStep code_lines rate)^[n] ⟨0, 0, []⟩

/-- Half-character rate: `chars_per_frame = 0.5 if code_frames > 0 else 1`. -/
def charsPerFrameHalf (code_frames : Nat) : Nat := if 0 < code_frames then 1 else 2

/-- Python `code.split('\n')` on the character list of the code string. -/
def pySplit (sep : Char) : List Char → List Line
  | [] => [[]]
  | c :: cs =>
    let r := pySplit sep cs
    if c = sep then [] :: r
    else (c :: r.headD []) :: r.tail

/-- The `code_progress` list passed to `create_video_frame` at frame `f`
(0-indexed). Within the code phase it is the list after `f + 1` iterations of
the update above; in the output and hold branches the source assigns
`code_progress = code_lines.copy()`. -/
def snapshotAt (code_lines : List Line) (code_frames f : Nat) : List Line :=
  if f < code_frames then
    (typingAfter code_lines (charsPerFrameHalf code_frames) (f + 1)).code_progress
  else code_lines

/-- The `output_progress` argument passed to `create_video_frame` at frame `f`:
`0` during the code phase; in the output phase the source computes
`int(((frame_num - code_frames) / output_frames) * len(output_text))` with IEEE
doubles, which for the frame counts and output lengths of real runs (both far
below 2^26) equals the exact floor `(f - cf) * L / of` used here; in the hold
branch it is `len(output_text) if output_text else 0`. -/
def outputProgressAt (hasOutput : Bool) (code_frames output_frames L f : Nat) : Nat :=
  if f < code_frames then 0
  else if hasOutput then
    if f < code_frames + output_frames then ((f - code_frames) * L) / output_frames
    else L
  else 0

/-- The output text revealed at progress `p`: `output_text[:output_progress]`
(create_video_frame line 727). -/
def displayed_output (output_text : Line) (p : Nat) : Line := output_text.take p

/-! ## Scroll controller (create_video_frame, lines 615-622)

```
MAX_LINES = 14
active_line_idx = len(code_progress) - 1
scroll_offset = max(0, active_line_idx - (MAX_LINES - 3))
visible_lines = code_lines[scroll_offset : scroll_offset + MAX_LINES]
```
`active_line_idx` is a Python int and is `-1` when `code_progress` is empty,
so it is modelled as an `Int`. -/

def MAX_LINES : Nat := 14

/-- Index of the line currently receiving characters. -/
def active_line_idx (code_progress : List Line) : Int :=
  (code_progress.length : Int) - 1

/-- The scroll offset derived each frame from the typing snapshot. -/
def scroll_offset (code_progress : List Line) : Int :=
  max 0 (active_line_idx code_progress - ((MAX_LINES : Int) - 3))

/-- The visible slice `code_lines[scroll_offset : scroll_offset + MAX_LINES]`. -/
def visible_lines (code_lines code_progress : List Line) : List Line :=
  (code_lines.drop (scroll_offset code_progress).toNat).take MAX_LINES

/-- The scroll offset of frame `f` of a run (derived from that frame's
`code_progress` snapshot). -/
def scroll_offset_at (code_lines : List Line) (code_frames f : Nat) : Int :=
  scroll_offset (snapshotAt code_lines code_frames f)

/-! ## Timeline driver frame counts (create_video, lines 854-857)

```
total_frames = int(duration * self.fps)
code_frames = int(total_frames * 0.6)
output_frames = int(total_frames * 0.3) if output_text else 0
```
with `self.fps = 30`. The durations of interest here are whole seconds, and at
the sizes appearing in the claims (total 300) the double products `300 * 0.6`
and `300 * 0.3` round to exactly `180.0` and `90.0`, so truncation agrees with
the exact `* 6 / 10` and `* 3 / 10` used here. -/

def fps : Nat := 30

def total_frames_of (duration : Nat) : Nat := duration * fps

def code_frames_of (total : Nat) : Nat := total * 6 / 10

def output_frames_of (hasOutput : Bool) (total : Nat) : Nat :=
  if hasOutput then total * 3 / 10 else 0

end YoutubeAutomation

namespace YoutubeAutomation

lemma foldl_append_map {T : Type} (colorOf : T → String) (toks : List (T × String)) :
    ∀ acc : String,
      (toks.map fun tv => (tv.2, colorOf tv.1)).foldl (fun a c => a ++ c.1) acc
        = toks.foldl (fun a tv => a ++ tv.2) acc := by
  induction toks with
  | nil => intro acc; rfl
  | cons t ts ih => intro acc; simpa using ih (acc ++ t.2)

lemma empty_append_str (s : String) : "" ++ s = s := rfl

/-! ## Invariants of the typing machine -/

lemma set_append_last {α : Type} (l : List α) (x v : α) :
    (l ++ [x]).set l.length v = l ++ [v] := by
  induction l with
  | nil => rfl
  | cons a t ih => simpa using ih

lemma set_append_last' {α : Type} (l : List α) (x v : α) (i : Nat) (h : i = l.length) :
    (l ++ [x]).set i v = l ++ [v] := by
  subst h
  exact set_append_last l x v

lemma getD_set_self (l : List Line) (i : Nat) (v : Line) (h : i < l.length) :
    (l.set i v).getD i [] = v := by
  induction l generalizing i with
  | nil => simp at h
  | cons a t ih =>
    cases i with
    | zero => simp
    | succ j => simpa using ih j (by simpa using h)

lemma getD_set_ne (l : List Line) (i j : Nat) (v : Line) (h : i ≠ j) :
    (l.set i v).getD j [] = l.getD j [] := by
  induction l generalizing i j with
  | nil => simp
  | cons a t ih =>
    cases i with
    | zero => cases j with
      | zero => exact absurd rfl h
      | succ m => simp
    | succ n => cases j with
      | zero => simp
      | succ m => simpa using ih n m (by omega)

/-- Loop invariant of the typing machine at rate 1 (half a character per
frame): either the machine sits at the start of a line (or past the last line)
with every recorded entry a complete line, or it is mid-line with the current
entry equal to the prefix written on the previous frame,
`line[:int(current_char - 0.5)]`. -/
def Inv (cl : List Line) (s : TypingState) : Prop :=
  (s.code_progress.length = s.current_line ∧ s.current_char = 0 ∧
     s.current_line ≤ cl.length ∧
     ∀ i, i < s.code_progress.length → s.code_progress.getD i [] = lineAt cl i)
  ∨ (s.code_progress.length = s.current_line + 1 ∧ s.current_line < cl.length ∧
     1 ≤ s.current_char ∧
     (∀ i, i < s.current_line → s.code_progress.getD i [] = lineAt cl i) ∧
     s.code_progress.getD s.current_line [] =
       (lineAt cl s.current_line).take ((s.current_char - 1) / 2))

lemma Inv_def (cl : List Line) (l c : Nat) (cp : List Line) :
    Inv cl ⟨l, c, cp⟩ ↔
      (cp.length = l ∧ c = 0 ∧ l ≤ cl.length ∧
        ∀ i, i < cp.length → cp.getD i [] = lineAt cl i)
      ∨ (cp.length = l + 1 ∧ l < cl.length ∧ 1 ≤ c ∧
        (∀ i, i < l → cp.getD i [] = lineAt cl i) ∧
        cp.getD l [] = (lineAt cl l).take ((c - 1) / 2)) := Iff.rfl

lemma typeStep_append (cl : List Line) (rate l c : Nat) (cp : List Line)
    (h1 : l < cl.length) (h2 : c / 2 ≤ (lineAt cl l).length) (h3 : cp.length ≤ l) :
    typeStep cl rate ⟨l, c, cp⟩ =
      ⟨l, c + rate, (cp ++ [[]]).set l ((lineAt cl l).take (c / 2))⟩ := by
  simp [typeStep, h1, h2, h3]

lemma typeStep_set (cl : List Line) (rate l c : Nat) (cp : List Line)
    (h1 : l < cl.length) (h2 : c / 2 ≤ (lineAt cl l).length) (h3 : l < cp.length) :
    typeStep cl rate ⟨l, c, cp⟩ =
      ⟨l, c + rate, cp.set l ((lineAt cl l).take (c / 2))⟩ := by
  simp [typeStep, h1, h2, Nat.not_le.mpr h3]

lemma typeStep_advance (cl : List Line) (rate l c : Nat) (cp : List Line)
    (h1 : l < cl.length) (h2 : ¬ c / 2 ≤ (lineAt cl l).length) :
    typeStep cl rate ⟨l, c, cp⟩ = ⟨l + 1, 0, cp⟩ := by
  simp [typeStep, h1, h2]

lemma typeStep_done (cl : List Line) (rate l c : Nat) (cp : List Line)
    (h1 : ¬ l < cl.length) :
    typeStep cl rate ⟨l, c, cp⟩ = ⟨l, c, cp⟩ := by
  simp [typeStep, h1]

lemma inv_init (cl : List Line) : Inv cl ⟨0, 0, []⟩ := by
  left
  refine ⟨rfl, rfl, Nat.zero_le _, ?_⟩
  intro i hi
  simp at hi

lemma inv_step (cl : List Line) (s : TypingState) (h : Inv cl s) :
    Inv cl (typeStep cl 1 s) := by
  obtain ⟨l, c, cp⟩ := s
  rcases (Inv_def cl l c cp).mp h with ⟨hlen, hc, hle, hfull⟩ | ⟨hlen, hlt, hc, hfull, hcur⟩
  · subst hc
    by_cases h1 : l < cl.length
    · rw [typeStep_append cl 1 l 0 cp h1 (by simp) (le_of_eq hlen)]
      have hset : (cp ++ [[]]).set l ((lineAt cl l).take 0) = cp ++ [[]] := by
        rw [List.take_zero, ← hlen, set_append_last]
      rw [hset, Inv_def]
      right
      refine ⟨by simp [hlen], h1, le_refl 1, ?_, ?_⟩
      · intro i hi
        rw [List.getD_append _ _ _ _ (by omega)]
        exact hfull i (by omega)
      · rw [← hlen, List.getD_append_right _ _ _ _ (le_refl _), Nat.sub_self]
        simp
    · rw [typeStep_done cl 1 l 0 cp h1, Inv_def]
      left
      exact ⟨hlen, rfl, hle, hfull⟩
  · by_cases h2 : c / 2 ≤ (lineAt cl l).length
    · rw [typeStep_set cl 1 l c cp hlt h2 (by omega), Inv_def]
      right
      refine ⟨by simp [hlen], hlt, by omega, ?_, ?_⟩
      · intro i hi
        rw [getD_set_ne _ _ _ _ (by omega)]
        exact hfull i hi
      · rw [getD_set_self _ _ _ (by omega)]
        congr 1
    · rw [typeStep_advance cl 1 l c cp hlt h2, Inv_def]
      left
      refine ⟨hlen, rfl, by omega, ?_⟩
      intro i hi
      rcases Nat.lt_or_ge i l with hil | hil
      · exact hfull i hil
      · have hieq : i = l := by omega
        subst hieq
        rw [hcur, List.take_of_length_le]
        omega

lemma inv_after (cl : List Line) (n : Nat) : Inv cl (typingAfter cl 1 n) := by
  induction n with
  | zero => exact inv_init cl
  | succ k ih =>
    rw [typingAfter, Function.iterate_succ_apply']
    exact inv_step cl _ ih

lemma cp_len_le (cl : List Line) (s : TypingState) (h : Inv cl s) :
    s.code_progress.length ≤ cl.length := by
  obtain ⟨l, c, cp⟩ := s
  show cp.length ≤ cl.length
  rcases (Inv_def cl l c cp).mp h with ⟨hlen, _, hle, _⟩ | ⟨hlen, hlt, _, _, _⟩ <;> omega

lemma take_min (l : Line) (a : Nat) : l.take a = l.take (min a l.length) := by
  rcases Nat.le_total a l.length with h | h
  · rw [Nat.min_eq_left h]
  · rw [Nat.min_eq_right h, List.take_of_length_le h, List.take_length]

/-- Every entry of the snapshot is a character-count prefix of its line. -/
lemma entry_take (cl : List Line) (s : TypingState) (h : Inv cl s) (i : Nat) :
    ∃ k, k ≤ (lineAt cl i).length ∧
      s.code_progress.getD i [] = (lineAt cl i).take k := by
  obtain ⟨l, c, cp⟩ := s
  show ∃ k, k ≤ (lineAt cl i).length ∧ cp.getD i [] = (lineAt cl i).take k
  by_cases hi : i < cp.length
  · rcases (Inv_def cl l c cp).mp h with ⟨hlen, hc, hle, hfull⟩ | ⟨hlen, hlt, hc, hfull, hcur⟩
    · exact ⟨(lineAt cl i).length, le_refl _, by rw [hfull i hi, List.take_length]⟩
    · rcases Nat.lt_or_ge i l with hil | hil
      · exact ⟨(lineAt cl i).length, le_refl _, by rw [hfull i hil, List.take_length]⟩
      · have hieq : i = l := by omega
        subst hieq
        refine ⟨min ((c - 1) / 2) (lineAt cl i).length, Nat.min_le_right _ _, ?_⟩
        rw [hcur, take_min]
  · refine ⟨0, Nat.zero_le _, ?_⟩
    rw [List.getD_eq_default _ _ (Nat.le_of_not_lt hi), List.take_zero]

lemma pref_refl (l : Line) : l <+: l := ⟨[], List.append_nil l⟩

lemma pref_nil (l : Line) : [] <+: l := ⟨l, rfl⟩

lemma take_le_take (l : Line) (a b : Nat) (h : a ≤ b) : l.take a <+: l.take b := by
  refine ⟨(l.take b).drop a, ?_⟩
  rw [show l.take a = (l.take b).take a by rw [List.take_take, Nat.min_eq_left h]]
  exact List.take_append_drop a (l.take b)

/-- One frame of the typing update only grows the snapshot, entrywise. -/
lemma step_grow (cl : List Line) (s : TypingState) (h : Inv cl s) :
    s.code_progress.length ≤ (typeStep cl 1 s).code_progress.length ∧
      ∀ i, s.code_progress.getD i [] <+: (typeStep cl 1 s).code_progress.getD i [] := by
  obtain ⟨l, c, cp⟩ := s
  rcases (Inv_def cl l c cp).mp h with ⟨hlen, hc, hle, hfull⟩ | ⟨hlen, hlt, hc, hfull, hcur⟩
  · subst hc
    by_cases h1 : l < cl.length
    · rw [typeStep_append cl 1 l 0 cp h1 (by simp) (le_of_eq hlen)]
      have hset : (cp ++ [[]]).set l ((lineAt cl l).take 0) = cp ++ [[]] := by
        rw [List.take_zero, ← hlen, set_append_last]
      rw [hset]
      constructor
      · show cp.length ≤ (cp ++ [[]]).length
        simp
      · intro i
        show cp.getD i [] <+: (cp ++ [[]]).getD i []
        rcases Nat.lt_or_ge i cp.length with hi | hi
        · rw [List.getD_append _ _ _ _ hi]
        · rw [List.getD_eq_default _ _ hi]
          exact pref_nil _
    · rw [typeStep_done cl 1 l 0 cp h1]
      exact ⟨le_refl _, fun i => pref_refl _⟩
  · by_cases h2 : c / 2 ≤ (lineAt cl l).length
    · rw [typeStep_set cl 1 l c cp hlt h2 (by omega)]
      constructor
      · show cp.length ≤ (cp.set l _).length
        simp
      · intro i
        show cp.getD i [] <+: (cp.set l _).getD i []
        by_cases hil : i = l
        · subst hil
          rw [getD_set_self _ _ _ (by omega), hcur]
          exact take_le_take _ _ _ (by omega)
        · rw [getD_set_ne _ _ _ _ (by omega)]
    · rw [typeStep_advance cl 1 l c cp hlt h2]
      exact ⟨le_refl _, fun i => pref_refl _⟩

lemma typingAfter_succ (cl : List Line) (rate n : Nat) :
    typingAfter cl rate (n + 1) = typeStep cl rate (typingAfter cl rate n) := by
  rw [typingAfter, typingAfter, Function.iterate_succ_apply']

/-- Across frames of the code phase the snapshot only grows, entrywise. -/
lemma after_grow (cl : List Line) (m n : Nat) (h : m ≤ n) :
    (typingAfter cl 1 m).code_progress.length ≤ (typingAfter cl 1 n).code_progress.length ∧
      ∀ i, (typingAfter cl 1 m).code_progress.getD i []
        <+: (typingAfter cl 1 n).code_progress.getD i [] := by
  induction n with
  | zero =>
    have hm : m = 0 := by omega
    subst hm
    exact ⟨le_refl _, fun i => pref_refl _⟩
  | succ k ih =>
    rcases Nat.lt_or_ge m (k + 1) with hmk | hmk
    · have h' := ih (by omega)
      have hstep := step_grow cl _ (inv_after cl k)
      rw [typingAfter_succ]
      exact ⟨le_trans h'.1 hstep.1, fun i => (h'.2 i).trans (hstep.2 i)⟩
    · have hm : m = k + 1 := by omega
      subst hm
      exact ⟨le_refl _, fun i => pref_refl _⟩

lemma snapshotAt_code (cl : List Line) (cf f : Nat) (h : f < cf) :
    snapshotAt cl cf f = (typingAfter cl 1 (f + 1)).code_progress := by
  have hrate : charsPerFrameHalf cf = 1 := by
    rw [charsPerFrameHalf, if_pos (by omega)]
  rw [snapshotAt, if_pos h, hrate]

lemma snapshotAt_ge (cl : List Line) (cf f : Nat) (h : cf ≤ f) :
    snapshotAt cl cf f = cl := by
  rw [snapshotAt, if_neg (by omega)]

lemma snapshot_len_le (cl : List Line) (cf f : Nat) :
    (snapshotAt cl cf f).length ≤ cl.length := by
  rcases Nat.lt_or_ge f cf with h | h
  · rw [snapshotAt_code cl cf f h]
    exact cp_len_le cl _ (inv_after cl (f + 1))
  · rw [snapshotAt_ge cl cf f h]

lemma snapshot_len_mono (cl : List Line) (cf m n : Nat) (h : m ≤ n) :
    (snapshotAt cl cf m).length ≤ (snapshotAt cl cf n).length := by
  rcases Nat.lt_or_ge n cf with hn | hn
  · rw [snapshotAt_code cl cf m (by omega), snapshotAt_code cl cf n hn]
    exact (after_grow cl (m + 1) (n + 1) (by omega)).1
  · rw [snapshotAt_ge cl cf n hn]
    exact snapshot_len_le cl cf m

/-- Every entry of every frame's snapshot is a take-prefix of its line. -/
lemma snapshot_entry_take (cl : List Line) (cf f i : Nat) :
    ∃ k, k ≤ (lineAt cl i).length ∧
      (snapshotAt cl cf f).getD i [] = (lineAt cl i).take k := by
  rcases Nat.lt_or_ge f cf with h | h
  · rw [snapshotAt_code cl cf f h]
    exact entry_take cl _ (inv_after cl (f + 1)) i
  · rw [snapshotAt_ge cl cf f h]
    exact ⟨(lineAt cl i).length, le_refl _, (List.take_length _).symm⟩

/-- Claim C2: at every frame of a run, entry `i` of the typing snapshot
`code_progress` is a prefix of `code_lines[i]` — it equals the line truncated
to its own length, which never exceeds the line's length — and once an entry
equals its full line it stays equal to it at every later frame of the run. -/
theorem code_progress_prefix_complete (cl : List Line) (cf m n i : Nat) (hmn : m ≤ n) :
    ((snapshotAt cl cf m).getD i []
        = (lineAt cl i).take ((snapshotAt cl cf m).getD i []).length
      ∧ ((snapshotAt cl cf m).getD i []).length ≤ (lineAt cl i).length)
    ∧ ((snapshotAt cl cf m).getD i [] = lineAt cl i →
        (snapshotAt cl cf n).getD i [] = lineAt cl i) := by
  obtain ⟨k, hk, he⟩ := snapshot_entry_take cl cf m i
  refine ⟨⟨?_, ?_⟩, ?_⟩
  · rw [he, List.length_take, Nat.min_eq_left hk]
  · rw [he, List.length_take]
    omega
  · intro hfull
    rcases Nat.lt_or_ge n cf with hn | hn
    · obtain ⟨k', hk', he'⟩ := snapshot_entry_take cl cf n i
      have hgrow : (snapshotAt cl cf m).getD i [] <+: (snapshotAt cl cf n).getD i [] := by
        rw [snapshotAt_code cl cf m (by omega), snapshotAt_code cl cf n hn]
        exact (after_grow cl (m + 1) (n + 1) (by omega)).2 i
      rw [hfull] at hgrow
      have hback : (snapshotAt cl cf n).getD i [] <+: lineAt cl i := by
        rw [he']
        exact ⟨(lineAt cl i).drop k', List.take_append_drop _ _⟩
      have hlen1 : (lineAt cl i).length ≤ ((snapshotAt cl cf n).getD i []).length :=
        hgrow.length_le
      have hlen2 : ((snapshotAt cl cf n).getD i []).length ≤ (lineAt cl i).length :=
        hback.length_le
      exact hback.eq_of_length (by omega)
    · rw [snapshotAt_ge cl cf n hn]
      rfl

/-- Claim C2 witness: the theorem applied to a concrete two-character line. -/
theorem code_progress_prefix_complete_witness :
    ((snapshotAt [['a', 'b']] 9 1).getD 0 []
        = (lineAt [['a', 'b']] 0).take ((snapshotAt [['a', 'b']] 9 1).getD 0 []).length
      ∧ ((snapshotAt [['a', 'b']] 9 1).getD 0 []).length ≤ (lineAt [['a', 'b']] 0).length)
    ∧ ((snapshotAt [['a', 'b']] 9 1).getD 0 [] = lineAt [['a', 'b']] 0 →
        (snapshotAt [['a', 'b']] 9 6).getD 0 [] = lineAt [['a', 'b']] 0) :=
  code_progress_prefix_complete [['a', 'b']] 9 1 6 0 (by decide)

/-- The scroll offset as a function of the snapshot length alone. -/
lemma scroll_offset_eq (cp : List Line) :
    scroll_offset cp = max 0 ((cp.length : Int) - 12) := by
  unfold scroll_offset active_line_idx MAX_LINES
  omega

/-- Claim C5: across the ordered frame sequence of a single run, the scroll
offset derived from the frame's typing snapshot is monotonically
non-decreasing — the viewport never scrolls back up. -/
theorem scroll_offset_monotone (cl : List Line) (cf m n : Nat) (hmn : m ≤ n) :
    scroll_offset_at cl cf m ≤ scroll_offset_at cl cf n := by
  have hlen := snapshot_len_mono cl cf m n hmn
  unfold scroll_offset_at
  rw [scroll_offset_eq, scroll_offset_eq]
  omega

/-- Claim C5 witness: the theorem applied to a concrete run. -/
theorem scroll_offset_monotone_witness :
    scroll_offset_at [['a']] 3 0 ≤ scroll_offset_at [['a']] 3 2 :=
  scroll_offset_monotone [['a']] 3 0 2 (by decide)

/-- One frame of the typing update changes the snapshot by at most one unit:
it is unchanged, or gains one empty entry at the end, or extends the last
entry by at most one character, earlier entries untouched. -/
lemma step_unit_change (cl : List Line) (s : TypingState) (h : Inv cl s) :
    (typeStep cl 1 s).code_progress = s.code_progress
    ∨ (typeStep cl 1 s).code_progress = s.code_progress ++ [[]]
    ∨ ((typeStep cl 1 s).code_progress.length = s.code_progress.length
        ∧ (∀ i, i + 1 < s.code_progress.length →
            (typeStep cl 1 s).code_progress.getD i [] = s.code_progress.getD i [])
        ∧ ∃ t : Line, t.length ≤ 1 ∧
            (typeStep cl 1 s).code_progress.getD (s.code_progress.length - 1) []
              = s.code_progress.getD (s.code_progress.length - 1) [] ++ t) := by
  obtain ⟨l, c, cp⟩ := s
  rcases (Inv_def cl l c cp).mp h with ⟨hlen, hc, hle, hfull⟩ | ⟨hlen, hlt, hc, hfull, hcur⟩
  · subst hc
    by_cases h1 : l < cl.length
    · rw [typeStep_append cl 1 l 0 cp h1 (by simp) (le_of_eq hlen)]
      right; left
      show (cp ++ [[]]).set l ((lineAt cl l).take 0) = cp ++ [[]]
      rw [List.take_zero, ← hlen, set_append_last]
    · rw [typeStep_done cl 1 l 0 cp h1]
      left
      rfl
  · by_cases h2 : c / 2 ≤ (lineAt cl l).length
    · rw [typeStep_set cl 1 l c cp hlt h2 (by omega)]
      right; right
      refine ⟨by simp, ?_, ?_⟩
      · intro i hi
        have hi' : i + 1 < cp.length := hi
        show (cp.set l _).getD i [] = cp.getD i []
        exact getD_set_ne _ _ _ _ (by omega)
      · refine ⟨((lineAt cl l).take (c / 2)).drop ((c - 1) / 2), ?_, ?_⟩
        · rw [List.length_drop, List.length_take]
          omega
        · show (cp.set l _).getD (cp.length - 1) [] = cp.getD (cp.length - 1) [] ++ _
          have hidx : cp.length - 1 = l := by omega
          rw [hidx, getD_set_self _ _ _ (by omega), hcur,
            show (lineAt cl l).take ((c - 1) / 2)
                = ((lineAt cl l).take (c / 2)).take ((c - 1) / 2) by
              rw [List.take_take, Nat.min_eq_left (by omega)],
            List.take_append_drop]
    · rw [typeStep_advance cl 1 l c cp hlt h2]
      left
      rfl

/-- Claim C10: between consecutive frames of the code phase the snapshot
changes by at most one unit — it either appends exactly one new empty entry,
or lengthens only the last existing entry by at most one character, or is
unchanged; earlier entries are never modified. -/
theorem typing_advance_unit_change (cl : List Line) (cf f : Nat) (h : f + 1 < cf) :
    snapshotAt cl cf (f + 1) = snapshotAt cl cf f
    ∨ snapshotAt cl cf (f + 1) = snapshotAt cl cf f ++ [[]]
    ∨ ((snapshotAt cl cf (f + 1)).length = (snapshotAt cl cf f).length
        ∧ (∀ i, i + 1 < (snapshotAt cl cf f).length →
            (snapshotAt cl cf (f + 1)).getD i [] = (snapshotAt cl cf f).getD i [])
        ∧ ∃ t : Line, t.length ≤ 1 ∧
            (snapshotAt cl cf (f + 1)).getD ((snapshotAt cl cf f).length - 1) []
              = (snapshotAt cl cf f).getD ((snapshotAt cl cf f).length - 1) [] ++ t) := by
  rw [snapshotAt_code cl cf f (by omega), snapshotAt_code cl cf (f + 1) h,
    show f + 1 + 1 = (f + 1) + 1 by rfl, typingAfter, Function.iterate_succ_apply']
  exact step_unit_change cl _ (inv_after cl (f + 1))

/-- Claim C10 witness: the theorem applied to a concrete run and frame. -/
theorem typing_advance_unit_change_witness :
    snapshotAt [['a', 'b']] 9 1 = snapshotAt [['a', 'b']] 9 0
    ∨ snapshotAt [['a', 'b']] 9 1 = snapshotAt [['a', 'b']] 9 0 ++ [[]]
    ∨ ((snapshotAt [['a', 'b']] 9 1).length = (snapshotAt [['a', 'b']] 9 0).length
        ∧ (∀ i, i + 1 < (snapshotAt [['a', 'b']] 9 0).length →
            (snapshotAt [['a', 'b']] 9 1).getD i [] = (snapshotAt [['a', 'b']] 9 0).getD i [])
        ∧ ∃ t : Line, t.length ≤ 1 ∧
            (snapshotAt [['a', 'b']] 9 1).getD ((snapshotAt [['a', 'b']] 9 0).length - 1) []
              = (snapshotAt [['a', 'b']] 9 0).getD
                  ((snapshotAt [['a', 'b']] 9 0).length - 1) [] ++ t) :=
  typing_advance_unit_change [['a', 'b']] 9 0 (by decide)

/-- Typing a line: during frames `1 .. 2n+2` after arriving at line `l` (with
the previous lines complete), the machine holds the prefix written on the
previous frame. -/
lemma type_line_mid (cl : List Line) (l : Nat) (h1 : l < cl.length) :
    ∀ k, 1 ≤ k → k ≤ 2 * (lineAt cl l).length + 2 →
      (typeStep cl 1)^[k] ⟨l, 0, cl.take l⟩ =
        ⟨l, k, cl.take l ++ [(lineAt cl l).take ((k - 1) / 2)]⟩ := by
  have hlen : (cl.take l).length = l := by
    rw [List.length_take]
    omega
  intro k
  induction k with
  | zero => omega
  | succ j ih =>
    intro _ hub
    rcases Nat.eq_zero_or_pos j with hj | hj
    · subst hj
      rw [Function.iterate_one,
        typeStep_append cl 1 l 0 (cl.take l) h1 (by simp) (le_of_eq hlen),
        List.take_zero, set_append_last' _ _ _ _ hlen.symm]
    · rw [Function.iterate_succ_apply', ih hj (by omega),
        typeStep_set cl 1 l j (cl.take l ++ [(lineAt cl l).take ((j - 1) / 2)]) h1
          (by omega) (by simp [hlen]),
        set_append_last' _ _ _ _ hlen.symm]
      have harg : (j + 1 - 1) / 2 = j / 2 := by omega
      rw [harg]

/-- Typing a line: after exactly `2n+3` frames at a line of length `n` the
machine moves to the next line, the snapshot completed through it. -/
lemma type_line_complete (cl : List Line) (l : Nat) (h1 : l < cl.length) :
    (typeStep cl 1)^[2 * (lineAt cl l).length + 3] ⟨l, 0, cl.take l⟩ =
      ⟨l + 1, 0, cl.take (l + 1)⟩ := by
  have hmid := type_line_mid cl l h1 (2 * (lineAt cl l).length + 2) (by omega) (le_refl _)
  rw [show 2 * (lineAt cl l).length + 3 = (2 * (lineAt cl l).length + 2) + 1 by omega,
    Function.iterate_succ_apply', hmid,
    typeStep_advance cl 1 l _ _ h1 (by omega)]
  have harg : (2 * (lineAt cl l).length + 2 - 1) / 2 = (lineAt cl l).length := by omega
  rw [harg, List.take_length, List.take_succ, List.getElem?_eq_getElem h1]
  have hval : lineAt cl l = cl[l] := by
    rw [lineAt, List.getD_eq_getElem]
  rw [hval]
  rfl

/-- Claim C8 (amended): a whitespace-only code line is processed by the typing
machine exactly like any other line — it is character-typed and a line of
length `n` occupies the machine for `2n+3` frames (so even the empty line
takes 3 frames), not a single frame; only the renderer treats whitespace
specially, by drawing no text for a blank displayed line. -/
theorem whitespace_line_typed_frames (cl : List Line) (l : Nat) (h1 : l < cl.length)
    (hw : (lineAt cl l).all Char.isWhitespace = true) :
    (typeStep cl 1)^[2 * (lineAt cl l).length + 3] ⟨l, 0, cl.take l⟩ =
        ⟨l + 1, 0, cl.take (l + 1)⟩
      ∧ ∀ k, 1 ≤ k → k ≤ 2 * (lineAt cl l).length + 2 →
          (typeStep cl 1)^[k] ⟨l, 0, cl.take l⟩ =
            ⟨l, k, cl.take l ++ [(lineAt cl l).take ((k - 1) / 2)]⟩ :=
  ⟨type_line_complete cl l h1, type_line_mid cl l h1⟩

/-- Claim C8 witness: the theorem applied to a one-space line. -/
theorem whitespace_line_typed_frames_witness :
    (typeStep [[' ']] 1)^[2 * (lineAt [[' ']] 0).length + 3] ⟨0, 0, List.take 0 [[' ']]⟩
        = ⟨0 + 1, 0, List.take (0 + 1) [[' ']]⟩
      ∧ (typeStep [[' ']] 1)^[2] ⟨0, 0, List.take 0 [[' ']]⟩
        = ⟨0, 2, List.take 0 [[' ']] ++ [(lineAt [[' ']] 0).take ((2 - 1) / 2)]⟩ :=
  ⟨(whitespace_line_typed_frames [[' ']] 0 (by decide) (by decide)).1,
   (whitespace_line_typed_frames [[' ']] 0 (by decide) (by decide)).2 2 (by decide) (by decide)⟩

/-- Claim C8 counterexample: for `code_lines = ["  ", "x"]` the snapshot after
three frames is `[" "]` — the whitespace-only line is being character-typed
(its entry is a proper non-empty prefix) and the machine has not advanced past
it after its first frame (the snapshot still has a single entry at frame 1),
contradicting the claim that a whitespace-only line consumes exactly one
frame-tick and is never character-typed. -/
theorem whitespace_line_counterexample :
    snapshotAt [[' ', ' '], ['x']] 100 2 = [[' ']]
      ∧ (snapshotAt [[' ', ' '], ['x']] 100 1).length = 1 := by
  decide

/-! ## Output-phase progress -/

lemma opa_code (b : Bool) (cf of L f : Nat) (hf : f < cf) :
    outputProgressAt b cf of L f = 0 := by
  simp [outputProgressAt, hf]

lemma opa_out (cf of L f : Nat) (hf : ¬ f < cf) (hfo : f < cf + of) :
    outputProgressAt true cf of L f = ((f - cf) * L) / of := by
  simp [outputProgressAt, hf, hfo]

lemma opa_hold (cf of L f : Nat) (hf : ¬ f < cf) (hfo : ¬ f < cf + of) :
    outputProgressAt true cf of L f = L := by
  simp [outputProgressAt, hf, hfo]

lemma output_progress_le_len (cf of L f : Nat) (hof : 0 < of) :
    outputProgressAt true cf of L f ≤ L := by
  rcases Nat.lt_or_ge f cf with h1 | h1
  · rw [opa_code _ _ _ _ _ h1]
    exact Nat.zero_le _
  · rcases Nat.lt_or_ge f (cf + of) with h2 | h2
    · rw [opa_out _ _ _ _ (by omega) h2]
      apply Nat.div_le_of_le_mul
      exact Nat.mul_le_mul (by omega) (le_refl L)
    · rw [opa_hold _ _ _ _ (by omega) (by omega)]

lemma last_output_frame_lt (of L : Nat) (hof : 0 < of) (hL : 0 < L) :
    ((of - 1) * L) / of < L := by
  obtain ⟨o', rfl⟩ : ∃ o', of = o' + 1 := ⟨of - 1, by omega⟩
  apply Nat.div_lt_of_lt_mul
  rw [show o' + 1 - 1 = o' from rfl, Nat.succ_mul]
  exact Nat.lt_add_of_pos_right hL

/-- Claim C1 (amended): for a non-empty output, the per-frame output progress
counter is monotonically non-decreasing across the whole run, but at the last
frame of the output phase it equals `⌊(output_frames - 1) / output_frames ×
len(output_text)⌋`, which is strictly less than `len(output_text)`; the full
length is first passed to the renderer in the hold phase (frame
`code_frames + output_frames` onward). -/
theorem output_progress_monotone_boundary (cf of L m n : Nat)
    (hof : 0 < of) (hL : 0 < L) (hmn : m ≤ n) :
    outputProgressAt true cf of L m ≤ outputProgressAt true cf of L n
      ∧ outputProgressAt true cf of L (cf + of - 1) = ((of - 1) * L) / of
      ∧ ((of - 1) * L) / of < L
      ∧ outputProgressAt true cf of L (cf + of) = L := by
  refine ⟨?_, ?_, last_output_frame_lt of L hof hL, ?_⟩
  · rcases Nat.lt_or_ge m cf with hm | hm
    · rw [opa_code true cf of L m hm]
      exact Nat.zero_le _
    · rcases Nat.lt_or_ge n (cf + of) with hn | hn
      · rw [opa_out cf of L m (by omega) (by omega), opa_out cf of L n (by omega) hn]
        exact Nat.div_le_div_right (Nat.mul_le_mul (by omega) (le_refl L))
      · rw [opa_hold cf of L n (by omega) (by omega)]
        exact output_progress_le_len cf of L m hof
  · rw [opa_out cf of L (cf + of - 1) (by omega) (by omega),
      show cf + of - 1 - cf = of - 1 by omega]
  · rw [opa_hold cf of L (cf + of) (by omega) (by omega)]

/-- Claim C1 witness: the theorem applied to the frame counts of the
Hello-World scenario. -/
theorem output_progress_monotone_boundary_witness :
    outputProgressAt true 180 90 13 200 ≤ outputProgressAt true 180 90 13 250
      ∧ outputProgressAt true 180 90 13 (180 + 90 - 1) = ((90 - 1) * 13) / 90
      ∧ ((90 - 1) * 13) / 90 < 13
      ∧ outputProgressAt true 180 90 13 (180 + 90) = 13 :=
  output_progress_monotone_boundary 180 90 13 200 250 (by decide) (by decide) (by decide)

/-- Claim C1 counterexample: with `code_frames = 180`, `output_frames = 90`
and a 13-character output, the output progress at the last frame of the output
phase (frame 269) is 12, not `len(output_text) = 13` — the counter never
reaches the full length inside the output phase. -/
theorem output_progress_last_output_frame :
    outputProgressAt true 180 90 13 (180 + 90 - 1) = 12
      ∧ ¬ outputProgressAt true 180 90 13 (180 + 90 - 1) = 13 := by
  decide

/-- Claim C4: the scroll offset equals `max 0 (active_line_index - 11)` with
`active_line_index = len(code_progress) - 1`; the visible slice is
`code_lines[offset : offset + 14]`; for a non-empty snapshot the active line
always lies in `[offset, offset + 14)`; and at 17 recorded entries
(`active_line_index = 16`) the offset is 5, the visible slice
`lines[5 : 19]`. -/
theorem scroll_window_spec (cl cp : List Line) (h : cp ≠ []) :
    scroll_offset cp = max 0 (active_line_idx cp - 11)
      ∧ visible_lines cl cp = (cl.drop (scroll_offset cp).toNat).take 14
      ∧ scroll_offset cp ≤ active_line_idx cp
      ∧ active_line_idx cp < scroll_offset cp + 14
      ∧ (cp.length = 17 →
          scroll_offset cp = 5 ∧ visible_lines cl cp = (cl.drop 5).take 14) := by
  have hlen : 1 ≤ cp.length := List.length_pos.mpr h
  refine ⟨?_, rfl, ?_, ?_, ?_⟩
  · rw [scroll_offset_eq]
    unfold active_line_idx
    omega
  · rw [scroll_offset_eq]
    unfold active_line_idx
    omega
  · rw [scroll_offset_eq]
    unfold active_line_idx
    omega
  · intro h17
    constructor
    · rw [scroll_offset_eq, h17]
      rfl
    · unfold visible_lines
      rw [scroll_offset_eq, h17]
      rfl

/-- Claim C4 witness: the theorem applied to a 20-line block with 17 recorded
entries. -/
theorem scroll_window_spec_witness :
    scroll_offset (List.replicate 17 ([] : Line))
        = max 0 (active_line_idx (List.replicate 17 ([] : Line)) - 11)
      ∧ visible_lines (List.replicate 20 ([] : Line)) (List.replicate 17 ([] : Line))
        = ((List.replicate 20 ([] : Line)).drop
            (scroll_offset (List.replicate 17 ([] : Line))).toNat).take 14
      ∧ scroll_offset (List.replicate 17 ([] : Line))
        ≤ active_line_idx (List.replicate 17 ([] : Line))
      ∧ active_line_idx (List.replicate 17 ([] : Line))
        < scroll_offset (List.replicate 17 ([] : Line)) + 14
      ∧ ((List.replicate 17 ([] : Line)).length = 17 →
          scroll_offset (List.replicate 17 ([] : Line)) = 5
          ∧ visible_lines (List.replicate 20 ([] : Line)) (List.replicate 17 ([] : Line))
            = ((List.replicate 20 ([] : Line)).drop 5).take 14) :=
  scroll_window_spec (List.replicate 20 ([] : Line)) (List.replicate 17 ([] : Line))
    (by decide)

set_option maxRecDepth 100000 in
/-- Claim C3: the Hello-World scenario. With `duration = 10` s and `fps = 30`:
300 total frames, 180 code frames, 90 output frames, 30 hold frames; the
typing snapshot at frame 0 is `[""]`; at frame 179 it is the fully typed
`[code]`; at frame 200 the output progress is 2 and the revealed output text
is `"He"`. -/
theorem hello_world_scenario :
    total_frames_of 10 = 300
      ∧ code_frames_of 300 = 180
      ∧ output_frames_of true 300 = 90
      ∧ 300 - code_frames_of 300 - output_frames_of true 300 = 30
      ∧ snapshotAt (pySplit '\n' "print('Hello, World!')".data) 180 0 = [[]]
      ∧ snapshotAt (pySplit '\n' "print('Hello, World!')".data) 180 179
        = ["print('Hello, World!')".data]
      ∧ "Hello, World!".data.length = 13
      ∧ outputProgressAt true 180 90 13 200 = 2
      ∧ displayed_output "Hello, World!".data (outputProgressAt true 180 90 13 200)
        = "He".data := by
  decide

/-- Claim C7 counterexample: the input `"00ff4"`, whose `#`-stripped form has
five characters (so is not exactly 6 hex digits), does not raise: `hex_to_rgb`
returns `(0, 255, 4)`, because Python `int("4", 16)` happily parses the
one-character slice `s[4:6]`. -/
theorem hex_to_rgb_five_digits_returns :
    hex_to_rgb "00ff4" = some (0, 255, 4)
      ∧ ("00ff4".data.dropWhile fun c => c = '#').length = 5 := by
  constructor <;> rfl

/-- Claim C7 (amended): `hex_to_rgb "#00ff41"` and `hex_to_rgb "00ff41"` both
give `(0, 255, 65)`, and the malformed `"#zz0000"` raises (there is no
`InvalidColorFormat` class in the source; Python raises the built-in
`ValueError` from `int(-, 16)`); but not every input whose stripped form is not
exactly 6 hex digits raises — it raises exactly when one of the three slices
fails `int(-, 16)` (see the counterexample). -/
theorem hex_to_rgb_values :
    hex_to_rgb "#00ff41" = some (0, 255, 65)
      ∧ hex_to_rgb "00ff41" = some (0, 255, 65)
      ∧ hex_to_rgb "#zz0000" = none := by
  refine ⟨?_, ?_, ?_⟩ <;> rfl

/-- Claim C6: for every line of text and language tag, concatenating the text
components of the chunk list returned by `get_text_chunks` yields exactly the
input line, on the empty-input path and the fallback path unconditionally, and
on the Pygments path whenever the external lexer's token values concatenate to
the input line (the lexer is an external collaborator; the hypothesis `hlex` is
its content-preservation contract, and the source preserves the stream
verbatim). -/
theorem get_text_chunks_concat {T : Type} (colorOf : T → String) (text language : String)
    (lexed : Option (List (T × String)))
    (hlex : ∀ toks, lexed = some toks → tokensText toks = text) :
    chunksText (get_text_chunks colorOf lexed text language) = text := by
  unfold get_text_chunks chunksText
  by_cases h : text = ""
  · simp [h]
  · rw [if_neg h]
    match lexed with
    | some toks =>
      rw [foldl_append_map]
      exact hlex toks rfl
    | none =>
      show "" ++ text = text
      exact empty_append_str text

/-- Claim C6 witness: the round-trip at a concrete line on both paths. -/
theorem get_text_chunks_concat_witness :
    chunksText (get_text_chunks (fun _ : Unit => "") (some [((), "pri"), ((), "nt")])
        "print" "python") = "print"
      ∧ chunksText (get_text_chunks (fun _ : Unit => "") none "print" "python") = "print" :=
  ⟨get_text_chunks_concat (fun _ : Unit => "") "print" "python" (some [((), "pri"), ((), "nt")])
      (fun toks h => by cases h; rfl),
   get_text_chunks_concat (fun _ : Unit => "") "print" "python" none
      (fun toks h => by cases h)⟩

end YoutubeAutomation
